import Mathlib

/-!
Shallow embedding of the PyBaMM expression-tree slicing subsystem:
`pybamm/expression_tree/state_vector.py` (StateVector) and
`pybamm/expression_tree/concatenations.py` (Concatenation,
DomainConcatenation).

Conventions of the embedding:
* numeric vectors are `List Int`; a NumPy column vector of shape (n, 1)
  is represented by the list of its n entries;
* Python exceptions become `Except PyError`;
* Python slices carry non-negative bounds here (`Nat`); every slice the
  claims exercise has non-negative bounds, so no NumPy negative-index
  wrapping is involved;
* dictionaries that the code iterates in insertion order are association
  lists.
-/

namespace PyBaMM

/-- The Python exception classes raised by the two modules.  The spec
names them InvalidArgumentError (TypeError), SizeMismatchError
(ValueError), DomainConflictError (pybamm.DomainError) and
UnsupportedOperationError (NotImplementedError). -/
inductive PyError where
  | typeError
  | valueError
  | indexError
  | keyError
  | domainError
  | notImplementedError
deriving DecidableEq, Repr

/-- A Python `slice(start, stop)` with non-negative bounds. -/
structure PySlice where
  start : Nat
  stop : Nat
deriving DecidableEq, Repr

/-! ## state_vector.py -/

/-- Python `array[s] = True` on a boolean array: NumPy clamps the slice to the
array length, so only existing positions inside `[s.start, s.stop)` are
set. -/
def markSlice (arr : List Bool) (s : PySlice) : List Bool :=
  arr.mapIdx fun i b => if s.start ≤ i ∧ i < s.stop then true else b

/-- Models `StateVector.set_evaluation_array`, recomputation path:
`array = np.zeros(y_slices[-1].stop)` followed by `array[y_slice] = True`
for each slice, then conversion to booleans.  (The other path merely
reuses a previously computed array when debug mode is off.) -/
def sv_evaluation_array (y_slices : List PySlice) : List Bool :=
  y_slices.foldl markSlice (List.replicate (y_slices.getLastD ⟨0, 0⟩).stop false)

/-- Boolean-mask selection `v[mask]`: the entries of `v` whose mask entry
is `True`, in ascending index order (NumPy fancy indexing with a boolean
array). -/
def maskSelect (v : List Int) (m : List Bool) : List Int :=
  (v.zip m).filterMap fun p => if p.2 then some p.1 else none

/-- Models `StateVector._base_evaluate(t, y)`: `TypeError` for a missing `y`,
`ValueError` when `y` is shorter than the evaluation array, otherwise
`(y[: len(evaluation_array)])[evaluation_array]` as a column vector. -/
def sv_base_evaluate (y_slices : List PySlice) (y : Option (List Int)) :
    Except PyError (List Int) :=
  match y with
  | none => .error .typeError
  | some yv =>
    let ea := sv_evaluation_array y_slices
    if yv.length < ea.length then .error .valueError
    else .ok (maskSelect (yv.take ea.length) ea)

/-- NumPy `v[s]` for a vector and a slice with non-negative bounds
(clamped to the vector length). -/
def sliceOf (v : List Int) (s : PySlice) : List Int :=
  (v.drop s.start).take (s.stop - s.start)

/-- One Jacobian block of `StateVector.jac`: for the slice `s` of the
node and the single slice `v` of the variable, the `(s.stop - s.start) ×
(v.stop - v.start)` matrix whose `(r, c)` entry is 1 when the global
index `s.start + r` coincides with `v.start + c`, and 0 otherwise
(`csr_matrix((data, (row, col)), shape=...)` built from the intersection
of the two index ranges). -/
def jacBlock (s v : PySlice) : List (List Int) :=
  (List.range (s.stop - s.start)).map fun r =>
    (List.range (v.stop - v.start)).map fun c =>
      if s.start + r = v.start + c then 1 else 0

/-- The all-zero block `csr_matrix((np.size(slice_indices),
np.size(variable_y_indices)))`. -/
def zeroBlock (s v : PySlice) : List (List Int) :=
  (List.range (s.stop - s.start)).map fun _ =>
    (List.range (v.stop - v.start)).map fun _ => (0 : Int)

/-- Models `np.size(np.intersect1d(slice_indices, variable_y_indices)) != 0`:
the index ranges of the two slices intersect. -/
def slicesIntersect (s v : PySlice) : Bool :=
  max s.start v.start < min s.stop v.stop

/-- Models `StateVector.jac(variable)` for a single-slice `variable`, starting
from the empty stack `csr_matrix((0, n))` and looping over the slices of
the node: a slice whose index range intersects the range of the variable
vstacks its block onto the accumulator, while a disjoint slice REPLACES
the whole accumulator by its zero block (`jac = csr_matrix(...)`, not a
vstack) — this replacement is the faithful translation of the source. -/
def sv_jac (y_slices : List PySlice) (var : PySlice) : List (List Int) :=
  y_slices.foldl
    (fun jac s =>
      if slicesIntersect s var then jac ++ jacBlock s var
      else zeroBlock s var)
    []

/-- A Python constructor argument of `StateVector.__init__`: a slice, or
some other object (modelled by an integer), which the isinstance check
rejects. -/
inductive PyVal where
  | slice : PySlice → PyVal
  | intVal : Int → PyVal
deriving DecidableEq, Repr

def PyVal.isSlice : PyVal → Bool
  | .slice _ => true
  | .intVal _ => false

/-- Models `StateVector.__init__` up to the point where the slices are stored:
the loop raises `TypeError` at any argument that is not a slice object;
after the loop, `y_slices[0]` raises `IndexError` when no slice was
supplied; otherwise the slices are accepted as given — their bounds are
never validated. -/
def stateVector_init_slices (args : List PyVal) : Except PyError (List PySlice) :=
  if ∃ a ∈ args, ¬ a.isSlice then .error .typeError
  else if args = [] then .error .indexError
  else
    .ok (args.filterMap fun a =>
      match a with
      | .slice s => some s
      | .intVal _ => none)

/-- The class/name/evaluation-array/domain tuple hashed by
`StateVector.set_id` (the class component is the constant `StateVector`
for every node considered here, so it is omitted; the hash itself is
modelled by the tuple). -/
structure StateVectorNode where
  y_slices : List PySlice
  name : String
  domain : List String
deriving DecidableEq, Repr

def sv_set_id (s : StateVectorNode) : String × (List Bool × List String) :=
  (s.name, (sv_evaluation_array s.y_slices, s.domain))

/-! ## concatenations.py -/

/-- The mesh interface consumed by `DomainConcatenation`: `mesh[d]` is
the ordered list of submesh entries of domain `d`, of which only the
point count `npts` is read; `pts d` is that list of point counts, so
`len(mesh[d]) = (pts d).length` and `mesh[d][i].npts = (pts d)[i]`. -/
structure Mesh where
  domain_order : List String
  pts : String → List Nat

/-- Models `Concatenation.get_children_domains`: accumulate the domain lists of
the children in child order, raising `pybamm.DomainError` when the
domain of a later child meets the accumulated set
(`set(domain).isdisjoint(child_domain)`). -/
def get_children_domains (children_domains : List (List String)) :
    Except PyError (List String) :=
  children_domains.foldlM
    (fun dom cd =>
      if ∀ d ∈ cd, d ∉ dom then .ok (dom ++ cd)
      else .error .domainError)
    []

/-- The attribute names of a Python `dict` object: `hasattr(aux_domains,
level)` in `get_children_auxiliary_domains` tests these, not key
presence, so it is `False` for every ordinary level name. -/
def dict_attr_names : List String :=
  ["clear", "copy", "fromkeys", "get", "items", "keys", "pop", "popitem",
   "setdefault", "update", "values"]

def hasattr_dict (s : String) : Bool := dict_attr_names.contains s

def assocGet (l : List (String × List String)) (k : String) :
    Option (List String) :=
  (l.find? fun p => p.1 = k).map Prod.snd

/-- Python `d[k] = v` on an insertion-ordered dict. -/
def assocSet (l : List (String × List String)) (k : String) (v : List String) :
    List (String × List String) :=
  if (l.find? fun p => p.1 = k).isSome then
    l.map fun p => if p.1 = k then (k, v) else p
  else l ++ [(k, v)]

/-- Models `Concatenation.get_children_auxiliary_domains`: for every level of
every child, in order, the guard is
`not hasattr(aux_domains, level) or aux_domains[level] == [] or
child.auxiliary_domains[level] == aux_domains[level]`; when it holds the
accumulator entry is ASSIGNED the value of the current child, else
`pybamm.DomainError` is raised.  Because `hasattr` tests a dict
attribute, its first disjunct is true for every ordinary level name and
each later child silently overwrites the accumulated value.  (When the
level happens to name a dict attribute and is not yet a key,
`aux_domains[level]` raises `KeyError`.) -/
def get_children_auxiliary_domains
    (children : List (List (String × List String))) :
    Except PyError (List (String × List String)) :=
  children.foldlM
    (fun acc child =>
      child.foldlM
        (fun acc2 kv =>
          if ¬ hasattr_dict kv.1 then .ok (assocSet acc2 kv.1 kv.2)
          else
            match assocGet acc2 kv.1 with
            | none => .error .keyError
            | some v =>
              if v = [] ∨ kv.2 = v then .ok (assocSet acc2 kv.1 kv.2)
              else .error .domainError)
        acc)
    []

/-- Models `sorted(domain_dict, key=domain_dict.__getitem__)` where
`domain_dict = {d: mesh.domain_order.index(d) for d in self.domain}`:
`list.index` raises `ValueError` for a domain absent from the canonical
order; otherwise the dict comprehension deduplicates the domains and the
sort by canonical position yields exactly the canonical order filtered
to the domains of the node. -/
def sortByOrder (order doms : List String) : Except PyError (List String) :=
  if ∀ d ∈ doms, d ∈ order then .ok (order.filter fun d => d ∈ doms)
  else .error .valueError

/-- Sequential lookup of `self.mesh[dom][i].npts` for a list of
`(dom, i)` pairs, failing with `IndexError` at the first out-of-range
access, as the Python loop does. -/
def lookupNpts (mesh : Mesh) :
    List (String × Nat) → Except PyError (List (String × Nat))
  | [] => .ok []
  | p :: rest =>
    match (mesh.pts p.1).get? p.2 with
    | none => .error .indexError
    | some n =>
      match lookupNpts mesh rest with
      | .error e => .error e
      | .ok r => .ok ((p.1, n) :: r)

/-- The `(dom, npts)` pairs read by the two nested loops of
`DomainConcatenation.create_slices`, in loop order: `for i in
range(second_pts): for dom in node.domain:`, reading
`self.mesh[dom][i].npts`. -/
def createOrder (mesh : Mesh) (second_pts : Nat) (doms : List String) :
    Except PyError (List (String × Nat)) :=
  lookupNpts mesh
    ((List.range second_pts).flatMap fun i => doms.map fun d => (d, i))

/-- The running cursor of `create_slices`: each `(dom, npts)` pair
appends the contiguous slice `[start, start + npts)` and advances the
cursor. -/
def assignSlices : List (String × Nat) → Nat → List (String × PySlice)
  | [], _ => []
  | (d, n) :: rest, start => (d, ⟨start, start + n⟩) :: assignSlices rest (start + n)

/-- Models `DomainConcatenation.create_slices(node)`: `node.domain[0]` raises
`IndexError` on an empty domain; `ValueError` when
`len(self.mesh[node.domain[0]])` differs from the secondary point count
of the concatenation; otherwise the slices in creation order.  The
per-domain lists of the `defaultdict` are recovered by `slicesFor`. -/
def create_slices (mesh : Mesh) (secondary : Nat) (node_doms : List String) :
    Except PyError (List (String × PySlice)) :=
  match node_doms with
  | [] => .error .indexError
  | d0 :: _ =>
    if (mesh.pts d0).length ≠ secondary then .error .valueError
    else
      match createOrder mesh (mesh.pts d0).length node_doms with
      | .error e => .error e
      | .ok pairs => .ok (assignSlices pairs 0)

/-- Lookup `slices[dom]`: the slices appended for domain `dom`, in creation
order (the per-key list of the `defaultdict(list)`). -/
def slicesFor (slices : List (String × PySlice)) (d : String) : List PySlice :=
  (slices.filter fun p => p.1 = d).map Prod.snd

/-- The keys of an insertion-ordered dict built by appending: first
occurrences, in order (`slices.items()` iteration order). -/
def firstKeys (l : List String) : List String :=
  l.foldl (fun acc d => if d ∈ acc then acc else acc ++ [d]) []

/-- The state computed by `DomainConcatenation.__init__` (without
`copy_this`): the canonically sorted domain, the secondary point count,
the global slice map, the stored size, and the per-child slice maps. -/
structure DomainConcat where
  domain : List String
  secondary : Nat
  slices : List (String × PySlice)
  size : Nat
  children_slices : List (List (String × PySlice))
deriving DecidableEq, Repr

/-- Models `self._size = self._slices[self.domain[-1]][-1].stop` (an empty
per-domain list raises `IndexError`). -/
def domConcat_size (slices : List (String × PySlice)) (doms : List String) :
    Except PyError Nat :=
  match (slicesFor slices (doms.getLastD "")).getLast? with
  | some s => .ok s.stop
  | none => .error .indexError

/-- Models `DomainConcatenation.__init__(children, mesh)` without `copy_this`:
merge the children domains, sort them by the canonical mesh order, raise
`pybamm.DomainError` when the sorted domain is empty, read
`secondary_dimensions_npts = len(self.mesh[self.domain[0]])`, build the
global slice map, store the size, and build one slice map per child. -/
def domainConcat_init (mesh : Mesh) (children_domains : List (List String)) :
    Except PyError DomainConcat :=
  match get_children_domains children_domains with
  | .error e => .error e
  | .ok merged =>
    match sortByOrder mesh.domain_order merged with
    | .error e => .error e
    | .ok [] => .error .domainError
    | .ok (d0 :: drest) =>
      match create_slices mesh (mesh.pts d0).length (d0 :: drest) with
      | .error e => .error e
      | .ok slices =>
        match domConcat_size slices (d0 :: drest) with
        | .error e => .error e
        | .ok size =>
          match children_domains.mapM
              (create_slices mesh (mesh.pts d0).length) with
          | .error e => .error e
          | .ok cs =>
            .ok ⟨d0 :: drest, (mesh.pts d0).length, slices, size, cs⟩

/-- NumPy `vector[s] = vals` for a slice whose length equals `vals.length` (the
only shape NumPy accepts here: every use writes a child sub-vector into
a global slice of the same length). -/
def writeSlice (v : List Int) (s : PySlice) (vals : List Int) : List Int :=
  v.take s.start ++ vals ++ v.drop (s.start + vals.length)

/-- The inner loops of `DomainConcatenation._concatenation_evaluate` for
one child: `for child_dom, child_slice in slices.items(): for i, _slice
in enumerate(child_slice): vector[self._slices[child_dom][i]] =
child_vector[_slice]`. -/
def scatterChild (gsl csl : List (String × PySlice)) (cv : List Int)
    (vec : List Int) : List Int :=
  (firstKeys (csl.map Prod.fst)).foldl
    (fun v d =>
      ((slicesFor csl d).zip (slicesFor gsl d)).foldl
        (fun v2 (p : PySlice × PySlice) => writeSlice v2 p.2 (sliceOf cv p.1))
        v)
    vec

/-- Models `DomainConcatenation._concatenation_evaluate(children_eval)`:
preallocate the output vector of length `size` (`np.empty` — the
preallocated contents, modelled as zeros, are immaterial once every
global slice has been written) and scatter every child sub-vector into
its global slice. -/
def domain_concatenation_evaluate (dc : DomainConcat)
    (children_eval : List (List Int)) : List Int :=
  (children_eval.zip dc.children_slices).foldl
    (fun vec p => scatterChild dc.slices p.2 p.1 vec)
    (List.replicate dc.size 0)

/-- Models `DomainConcatenation._concatenation_simplify` restricted to the
branch where every child is a `StateVector` (each child given by its
slice list): `longest_eval_array = len(children[-1]._evaluation_array)`
(an empty child list raises `IndexError`); every mask is padded with
`np.zeros(longest_eval_array - len(child.evaluation_array))`, which
raises `ValueError` when the difference is negative; when the padded
masks sum to exactly 1 at every position the whole concatenation is
replaced by `StateVector(slice(children[0].y_slices[0].start,
children[-1].y_slices[-1].stop))` (`.ok (some s)`); otherwise a plain
copy with cleared domain is produced (`.ok none`). -/
def concat_simplify_sv (children : List (List PySlice)) :
    Except PyError (Option PySlice) :=
  match children.getLast? with
  | none => .error .indexError
  | some lastC =>
    if ∀ c ∈ children,
        (sv_evaluation_array c).length ≤ (sv_evaluation_array lastC).length then
      if (List.range (sv_evaluation_array lastC).length).all
          (fun i =>
            ((children.map fun c =>
                sv_evaluation_array c ++
                  List.replicate ((sv_evaluation_array lastC).length -
                    (sv_evaluation_array c).length) false).map
              fun p => if p.getD i false then 1 else 0).sum = 1) then
        .ok (some ⟨((children.headD []).headD ⟨0, 0⟩).start,
          (lastC.getLastD ⟨0, 0⟩).stop⟩)
      else .ok none
    else .error .valueError

/-- Elementwise sum of the evaluation masks of the children, padded to
length `len`, equal to 1 at every position: the collapse criterion of
`_concatenation_simplify`, with the padding length as a parameter (the
code uses the mask length of the last child; the spec speaks of a common
length). -/
def masksSumToOneAt (children : List (List PySlice)) (len : Nat) : Bool :=
  (List.range len).all fun i =>
    (children.map fun c =>
      if (sv_evaluation_array c).getD i false then 1 else 0).sum = 1

/-! ## Concrete meshes used by the test-style theorems -/

/-- A mesh with canonical order `[A, B]`, one secondary point, 2 points
on `A` and 3 points on `B` (the mesh of the worked example of the
spec). -/
def meshAB : Mesh :=
  ⟨["A", "B"], fun d => if d = "A" then [2] else if d = "B" then [3] else []⟩

/-- A mesh with canonical order `[A, B]` and TWO secondary points, one
mesh point per domain and secondary index. -/
def meshAB2 : Mesh :=
  ⟨["A", "B"],
   fun d => if d = "A" then [1, 1] else if d = "B" then [1, 1] else []⟩

/-- A mesh with canonical order `[A, B, C]`, one secondary point and one
mesh point per domain. -/
def meshABC : Mesh :=
  ⟨["A", "B", "C"],
   fun d =>
     if d = "A" then [1] else if d = "B" then [1]
     else if d = "C" then [1] else []⟩

/-- Cumulative point count: the sum of the point counts of the first `k`
`(dom, npts)` pairs — the cursor value of `create_slices` after `k`
appends. -/
def cumNpts (ps : List (String × Nat)) (k : Nat) : Nat :=
  ((ps.take k).map Prod.snd).sum

/-- Total point count of a `(dom, npts)` pair list. -/
def totalNpts (ps : List (String × Nat)) : Nat :=
  (ps.map Prod.snd).sum

/-! ## Theorems -/

/-- C1, counterexample.  Over the two-domain mesh `meshAB2` with
`secondary_dimensions_npts = 2`, `create_slices` produces the creation
order A, B, A, B — the slice `[2, 3)` of the canonically earlier domain
`A` comes after the slice `[1, 2)` of the later domain `B`, so it is NOT
the case that every output slice of an earlier canonical domain precedes
every output slice of a later canonical domain. -/
theorem create_slices_interleaves_domains :
    create_slices meshAB2 2 ["A", "B"] =
      .ok [("A", ⟨0, 1⟩), ("B", ⟨1, 2⟩), ("A", ⟨2, 3⟩), ("B", ⟨3, 4⟩)]
    ∧ ¬ (∀ sa ∈ slicesFor
            [("A", ⟨0, 1⟩), ("B", ⟨1, 2⟩), ("A", ⟨2, 3⟩), ("B", ⟨3, 4⟩)] "A",
          ∀ sb ∈ slicesFor
            [("A", ⟨0, 1⟩), ("B", ⟨1, 2⟩), ("A", ⟨2, 3⟩), ("B", ⟨3, 4⟩)] "B",
            sa.stop ≤ sb.start) := by
  constructor
  · rfl
  · decide

/-- C2.  `StateVector.jac` at the failing input: a node with slices
`[0, 1)` and `[2, 3)` differentiated with respect to the single-slice
variable `[0, 1)`.  The first slice intersects the variable and stacks
the 1×1 identity block; the second slice is disjoint, and the code then
REPLACES the whole accumulated matrix by the 1×1 zero block instead of
stacking it, so the result is the 1×1 matrix `[[0]]` — not the 2×1
matrix `[[1], [0]]` promised by the docstring of `jac` (an `m × n`
matrix with ones where the slices match) and by the claim. -/
theorem sv_jac_discards_stacked_blocks :
    sv_jac [⟨0, 1⟩, ⟨2, 3⟩] ⟨0, 1⟩ = [[0]]
    ∧ ([[0]] : List (List Int)) ≠ [[1], [0]] := by
  exact ⟨rfl, by decide⟩

/-- C3, counterexample.  Children `[SV(slice(2,4)), SV(slice(0,2))]`:
their evaluation masks padded to the common length 4 sum to exactly 1 at
every position, so the claim demands a collapse; but the code pads to
the mask length of the LAST child (namely 2), the pad width
`2 - 4` is negative, and `np.zeros` raises `ValueError` — no collapse
and no copy is produced. -/
theorem concat_simplify_pads_to_last_child :
    masksSumToOneAt [[⟨2, 4⟩], [⟨0, 2⟩]] 4 = true
    ∧ sv_evaluation_array [⟨2, 4⟩] = [false, false, true, true]
    ∧ sv_evaluation_array [⟨0, 2⟩] = [true, true]
    ∧ concat_simplify_sv [[⟨2, 4⟩], [⟨0, 2⟩]] = .error .valueError := by
  exact ⟨by decide, by decide, by decide, rfl⟩

/-- C4, counterexample.  Children `SV(slice(1,2))`, `SV(slice(0,1))`,
`SV(slice(2,3))` on domains A, B, C of `meshABC`: the padded masks sum
to 1 everywhere, so the collapse fires and replaces the concatenation by
`StateVector(slice(1, 3))`; but on `y = [10, 20, 30]` the original
concatenation evaluates to `[20, 10, 30]` (children scattered to the
canonical domain layout) while the replacement evaluates to `[20, 30]` —
not even of the same length. -/
theorem concat_simplify_collapse_not_equivalent :
    concat_simplify_sv [[⟨1, 2⟩], [⟨0, 1⟩], [⟨2, 3⟩]] = .ok (some ⟨1, 3⟩)
    ∧ domainConcat_init meshABC [["A"], ["B"], ["C"]] =
        .ok ⟨["A", "B", "C"], 1,
          [("A", ⟨0, 1⟩), ("B", ⟨1, 2⟩), ("C", ⟨2, 3⟩)], 3,
          [[("A", ⟨0, 1⟩)], [("B", ⟨0, 1⟩)], [("C", ⟨0, 1⟩)]]⟩
    ∧ sv_base_evaluate [⟨1, 2⟩] (some [10, 20, 30]) = .ok [20]
    ∧ sv_base_evaluate [⟨0, 1⟩] (some [10, 20, 30]) = .ok [10]
    ∧ sv_base_evaluate [⟨2, 3⟩] (some [10, 20, 30]) = .ok [30]
    ∧ domain_concatenation_evaluate
        ⟨["A", "B", "C"], 1,
          [("A", ⟨0, 1⟩), ("B", ⟨1, 2⟩), ("C", ⟨2, 3⟩)], 3,
          [[("A", ⟨0, 1⟩)], [("B", ⟨0, 1⟩)], [("C", ⟨0, 1⟩)]]⟩
        [[20], [10], [30]] = [20, 10, 30]
    ∧ sv_base_evaluate [⟨1, 3⟩] (some [10, 20, 30]) = .ok [20, 30]
    ∧ ([20, 10, 30] : List Int) ≠ [20, 30] := by
  refine ⟨rfl, rfl, rfl, rfl, rfl, rfl, rfl, by decide⟩

/-- C5.  Two children whose auxiliary domains assign different non-empty
values `["a"]` and `["b"]` to the same level `"secondary"`: because
`hasattr(aux_domains, level)` tests for a dict ATTRIBUTE named
`"secondary"` (there is none) instead of key presence, the guard is
satisfied for both children and the merge silently returns the value of
the LAST child, `["b"]`, instead of raising `pybamm.DomainError` as the
error message of the unreachable branch (and the claim) prescribe. -/
theorem aux_domains_conflict_not_detected :
    get_children_auxiliary_domains
        [[("secondary", ["a"])], [("secondary", ["b"])]] =
      .ok [("secondary", ["b"])]
    ∧ hasattr_dict "secondary" = false
    ∧ (["a"] : List String) ≠ ["b"] := by
  exact ⟨rfl, by decide, by decide⟩

/-- C6, counterexample.  A StateVector whose slices are supplied out of
index order, `slice(2,4)` then `slice(0,2)`: the evaluation array is
only `last_point = 2` long (the positions of `slice(2,4)` fall outside
it and are dropped), and boolean-mask selection returns the surviving
positions in ascending index order, so on `y = [10, 20, 30, 40]` the
result is `[[10], [20]]` — not `[[30], [40], [10], [20]]`, the values in
the order the slices were supplied, as the claim states. -/
theorem sv_evaluate_not_slice_supply_order :
    sv_base_evaluate [⟨2, 4⟩, ⟨0, 2⟩] (some [10, 20, 30, 40]) = .ok [10, 20]
    ∧ ([10, 20] : List Int) ≠ [30, 40, 10, 20] := by
  exact ⟨rfl, by decide⟩

/-- C9, counterexample.  `StateVector(slice(5, 2))`: the constructor
only checks `isinstance(y_slice, slice)`, so the malformed slice with
`start > stop` is accepted and a StateVector is constructed (its
evaluation array is the all-false `[False, False]`) — construction does
not fail on ill-formed bounds. -/
theorem stateVector_accepts_malformed_slice :
    stateVector_init_slices [.slice ⟨5, 2⟩] = .ok [⟨5, 2⟩]
    ∧ sv_evaluation_array [⟨5, 2⟩] = [false, false]
    ∧ ¬ (5 : Nat) ≤ 2 := by
  refine ⟨?_, by decide, by decide⟩
  rfl

/-! ### Structure of the running-cursor slice assignment -/

theorem assignSlices_length (ps : List (String × Nat)) (s : Nat) :
    (assignSlices ps s).length = ps.length := by
  induction ps generalizing s with
  | nil => rfl
  | cons p rest ih => cases p; simp [assignSlices, ih]

theorem assignSlices_map_fst (ps : List (String × Nat)) (s : Nat) :
    (assignSlices ps s).map Prod.fst = ps.map Prod.fst := by
  induction ps generalizing s with
  | nil => rfl
  | cons p rest ih => cases p; simp [assignSlices, ih]

theorem cumNpts_zero (ps : List (String × Nat)) : cumNpts ps 0 = 0 := rfl

theorem cumNpts_succ (ps : List (String × Nat)) (k : Nat) (h : k < ps.length) :
    cumNpts ps (k + 1) = cumNpts ps k + (ps.getD k ("", 0)).2 := by
  unfold cumNpts
  rw [List.map_take, List.map_take, List.take_succ,
    List.getElem?_eq_getElem (show k < (ps.map Prod.snd).length by simpa using h)]
  simp [List.getD, List.getElem?_eq_getElem h]

theorem cumNpts_le_succ (ps : List (String × Nat)) (k : Nat) :
    cumNpts ps k ≤ cumNpts ps (k + 1) := by
  by_cases h : k < ps.length
  · rw [cumNpts_succ ps k h]; omega
  · simp only [cumNpts]
    rw [List.take_of_length_le (by omega), List.take_of_length_le (by omega)]

theorem cumNpts_mono (ps : List (String × Nat)) {k1 k2 : Nat} (h : k1 ≤ k2) :
    cumNpts ps k1 ≤ cumNpts ps k2 := by
  induction k2 with
  | zero =>
    have : k1 = 0 := by omega
    subst this; exact le_refl _
  | succ n ih =>
    rcases Nat.lt_or_ge k1 (n + 1) with hlt | hge
    · exact le_trans (ih (by omega)) (cumNpts_le_succ ps n)
    · have : k1 = n + 1 := by omega
      subst this; exact le_refl _

theorem cumNpts_length (ps : List (String × Nat)) :
    cumNpts ps ps.length = totalNpts ps := by
  simp [cumNpts, totalNpts]

theorem assignSlices_getD (ps : List (String × Nat)) (s k : Nat)
    (h : k < ps.length) :
    (assignSlices ps s).getD k ("", ⟨0, 0⟩) =
      ((ps.getD k ("", 0)).1,
        ⟨s + cumNpts ps k, s + cumNpts ps (k + 1)⟩) := by
  induction ps generalizing s k with
  | nil => simp at h
  | cons p rest ih =>
    cases p with
    | mk d n =>
      cases k with
      | zero =>
        simp [assignSlices, cumNpts, List.take_succ]
      | succ k =>
        have hk : k < rest.length := by simpa using h
        have := ih (s + n) k hk
        simp only [assignSlices, List.getD_cons_succ, List.getD_cons_zero] at this ⊢
        rw [this]
        have h1 : cumNpts ((d, n) :: rest) (k + 1) = n + cumNpts rest k := by
          simp [cumNpts, List.take_succ_cons]
        have h2 : cumNpts ((d, n) :: rest) (k + 2) = n + cumNpts rest (k + 1) := by
          simp [cumNpts, List.take_succ_cons]
        simp [h1, h2]
        constructor <;> omega

theorem getLastD_of_ne_nil {α : Type} (l : List α) (d1 d2 : α) (h : l ≠ []) :
    l.getLastD d1 = l.getLastD d2 := by
  rw [List.getLastD_eq_getLast?, List.getLastD_eq_getLast?]
  cases hl : l.getLast? with
  | none =>
    exfalso
    cases l with
    | nil => exact h rfl
    | cons a t => simp [List.getLast?_eq_getLast] at hl
  | some y => rfl

theorem assignSlices_getLastD_stop (ps : List (String × Nat)) (s : Nat)
    (h : ps ≠ []) :
    ((assignSlices ps s).getLastD ("", ⟨0, 0⟩)).2.stop = s + totalNpts ps := by
  induction ps generalizing s with
  | nil => exact absurd rfl h
  | cons p rest ih =>
    cases p with
    | mk d n =>
      cases rest with
      | nil => simp [assignSlices, totalNpts]
      | cons q rest2 =>
        calc ((assignSlices ((d, n) :: q :: rest2) s).getLastD
                ("", ⟨0, 0⟩)).2.stop
            = ((assignSlices (q :: rest2) (s + n)).getLastD
                ("", ⟨0, 0⟩)).2.stop := by
              simp only [assignSlices, List.getLastD_cons]
          _ = s + totalNpts ((d, n) :: q :: rest2) := by
              rw [ih (s + n) (by simp)]
              simp only [totalNpts, List.map_cons, List.sum_cons]
              omega

theorem getLast?_filter_of_getLast? {α : Type} (l : List α) (p : α → Bool)
    (x : α) (h : l.getLast? = some x) (hp : p x = true) :
    (l.filter p).getLast? = some x := by
  induction l with
  | nil => simp at h
  | cons a t ih =>
    cases t with
    | nil =>
      have : a = x := by simpa using h
      subst this
      simp [List.filter, hp]
    | cons b t2 =>
      have h2 : (b :: t2).getLast? = some x := by
        simpa [List.getLast?_cons_cons] using h
      have htail := ih h2
      have hne : (b :: t2).filter p ≠ [] := by
        intro hcon
        rw [hcon] at htail
        simp at htail
      rw [List.filter_cons]
      by_cases hpa : p a
      · simp only [hpa, if_pos]
        cases hfp : (b :: t2).filter p with
        | nil => exact absurd hfp hne
        | cons c t3 =>
          rw [hfp] at htail
          rw [List.getLast?_cons_cons]
          exact htail
      · simp only [hpa]
        simpa using htail

/-! ### Evaluation-array (mask) lemmas -/

theorem length_markSlice (arr : List Bool) (s : PySlice) :
    (markSlice arr s).length = arr.length := by
  simp [markSlice]

theorem getD_markSlice (arr : List Bool) (s : PySlice) (i : Nat)
    (h : i < arr.length) :
    (markSlice arr s).getD i false =
      if s.start ≤ i ∧ i < s.stop then true else arr.getD i false := by
  have h2 : i < (markSlice arr s).length := by rw [length_markSlice]; exact h
  rw [List.getD_eq_getElem _ _ h2, List.getD_eq_getElem _ _ h]
  simp [markSlice]

theorem length_foldl_markSlice (ss : List PySlice) (arr : List Bool) :
    (ss.foldl markSlice arr).length = arr.length := by
  induction ss generalizing arr with
  | nil => rfl
  | cons s t ih => rw [List.foldl_cons, ih, length_markSlice]

theorem length_sv_evaluation_array (ys : List PySlice) :
    (sv_evaluation_array ys).length = (ys.getLastD ⟨0, 0⟩).stop := by
  rw [sv_evaluation_array, length_foldl_markSlice, List.length_replicate]

theorem getD_foldl_markSlice (ss : List PySlice) (arr : List Bool) (i : Nat)
    (h : i < arr.length) :
    (ss.foldl markSlice arr).getD i false =
      (arr.getD i false
        || ss.any fun s => decide (s.start ≤ i ∧ i < s.stop)) := by
  induction ss generalizing arr with
  | nil => simp
  | cons s t ih =>
    rw [List.foldl_cons, ih (markSlice arr s) ((length_markSlice arr s).symm ▸ h),
      getD_markSlice arr s i h]
    by_cases hc : s.start ≤ i ∧ i < s.stop
    · simp [hc]
    · have hd : decide (s.start ≤ i ∧ i < s.stop) = false := by
        simpa using hc
      simp only [if_neg hc, List.any_cons]
      rw [hd]
      simp

theorem getD_sv_evaluation_array (ys : List PySlice) (i : Nat) :
    (sv_evaluation_array ys).getD i false =
      (decide (i < (ys.getLastD ⟨0, 0⟩).stop)
        && ys.any fun s => decide (s.start ≤ i ∧ i < s.stop)) := by
  by_cases h : i < (ys.getLastD ⟨0, 0⟩).stop
  · rw [sv_evaluation_array,
      getD_foldl_markSlice ys _ i (by simpa using h)]
    have hdt : decide (i < (ys.getLastD ⟨0, 0⟩).stop) = true := by simpa using h
    rw [hdt, Bool.true_and,
      List.getD_eq_getElem _ _ (by simpa using h), List.getElem_replicate,
      Bool.false_or]
  · rw [List.getD_eq_default _ _ (by rw [length_sv_evaluation_array]; omega)]
    have hdt : decide (i < (ys.getLastD ⟨0, 0⟩).stop) = false := by simpa using h
    rw [hdt, Bool.false_and]

theorem getD_sv_evaluation_array_single (a b i : Nat) :
    (sv_evaluation_array [⟨a, b⟩]).getD i false = decide (a ≤ i ∧ i < b) := by
  rw [getD_sv_evaluation_array]
  have hl : ([⟨a, b⟩] : List PySlice).getLastD ⟨0, 0⟩ = ⟨a, b⟩ := rfl
  rw [hl]
  by_cases h1 : a ≤ i <;> by_cases h2 : i < b <;> simp [h1, h2]

/-! ### Boolean-mask selection lemmas -/

theorem maskSelect_append (v1 v2 : List Int) (m1 m2 : List Bool)
    (h : v1.length = m1.length) :
    maskSelect (v1 ++ v2) (m1 ++ m2) = maskSelect v1 m1 ++ maskSelect v2 m2 := by
  rw [maskSelect, List.zip_append h, List.filterMap_append]
  rfl

theorem maskSelect_replicate_false (v : List Int) (n : Nat) :
    maskSelect v (List.replicate n false) = [] := by
  induction v generalizing n with
  | nil => rfl
  | cons x t ih =>
    cases n with
    | zero => rfl
    | succ m =>
      rw [List.replicate_succ]
      simpa [maskSelect, List.zip_cons_cons] using ih m

theorem maskSelect_replicate_true (v : List Int) (n : Nat) :
    maskSelect v (List.replicate n true) = v.take n := by
  induction v generalizing n with
  | nil => simp [maskSelect]
  | cons x t ih =>
    cases n with
    | zero => rfl
    | succ m =>
      rw [List.replicate_succ]
      simpa [maskSelect, List.zip_cons_cons] using ih m

theorem maskSelect_eq_range_filterMap (m : List Bool) (v : List Int)
    (h : v.length = m.length) :
    maskSelect v m =
      (List.range m.length).filterMap fun i =>
        if m.getD i false then some (v.getD i 0) else none := by
  induction m generalizing v with
  | nil =>
    have : v = [] := List.length_eq_zero.mp h
    subst this
    rfl
  | cons b mt ih =>
    cases v with
    | nil => simp at h
    | cons x vt =>
      have hlen : vt.length = mt.length := by simpa using h
      rw [List.length_cons, List.range_succ_eq_map]
      rw [List.filterMap_cons, List.filterMap_map]
      have hzip : maskSelect (x :: vt) (b :: mt) =
          (if b then [x] else []) ++ maskSelect vt mt := by
        by_cases hb : b <;> simp [maskSelect, List.zip_cons_cons, hb]
      rw [hzip, ih vt hlen]
      have hcomp :
          ((fun i => if (b :: mt).getD i false
              then some ((x :: vt).getD i 0) else none) ∘ Nat.succ) =
            fun i => if mt.getD i false then some (vt.getD i 0) else none := by
        funext i
        simp [Function.comp, List.getD_cons_succ]
      rw [hcomp]
      by_cases hb : b <;> simp [hb]

theorem sv_evaluation_array_single (a b : Nat) (hab : a ≤ b) :
    sv_evaluation_array [⟨a, b⟩] =
      List.replicate a false ++ List.replicate (b - a) true := by
  have hlenb : (sv_evaluation_array [⟨a, b⟩]).length = b :=
    length_sv_evaluation_array [⟨a, b⟩]
  have hlen : (sv_evaluation_array [⟨a, b⟩]).length =
      (List.replicate a false ++ List.replicate (b - a) true).length := by
    rw [hlenb]
    simp
    omega
  apply List.ext_getElem hlen
  intro i h1 h2
  have hib : i < b := by omega
  rw [← List.getD_eq_getElem _ false h1, ← List.getD_eq_getElem _ false h2,
    getD_sv_evaluation_array_single]
  by_cases hia : i < a
  · rw [List.getD_append _ _ _ _ (by simpa using hia),
      List.getD_eq_getElem _ _ (by simpa using hia),
      List.getElem_replicate]
    simp
    omega
  · rw [List.getD_append_right _ _ _ _ (by simpa using hia),
      List.getD_eq_getElem _ _ (by simp; omega),
      List.getElem_replicate]
    simp
    omega

theorem sliceOf_single_take (y : List Int) (b : Nat) :
    sliceOf y ⟨0, b⟩ = y.take b := by
  simp [sliceOf]

theorem sv_base_evaluate_single (a b : Nat) (y : List Int) (hab : a ≤ b)
    (hb : b ≤ y.length) :
    sv_base_evaluate [⟨a, b⟩] (some y) = .ok (sliceOf y ⟨a, b⟩) := by
  have hlen : (sv_evaluation_array [⟨a, b⟩]).length = b :=
    length_sv_evaluation_array [⟨a, b⟩]
  rw [sv_base_evaluate]
  simp only [hlen]
  rw [if_neg (by omega)]
  congr 1
  rw [sv_evaluation_array_single a b hab]
  have htake : y.take b = y.take a ++ ((y.drop a).take (b - a)) := by
    rw [← List.take_add]
    congr 1
    omega
  rw [htake,
    maskSelect_append _ _ _ _ (by simp; omega),
    maskSelect_replicate_false, maskSelect_replicate_true]
  simp only [List.nil_append, sliceOf]
  rw [List.take_take]
  congr 1
  omega

theorem sliceOf_chain (y : List Int) (a b c : Nat) (h1 : a ≤ b) (h2 : b ≤ c) :
    sliceOf y ⟨a, b⟩ ++ sliceOf y ⟨b, c⟩ = sliceOf y ⟨a, c⟩ := by
  simp only [sliceOf]
  have hd : y.drop b = (y.drop a).drop (b - a) := by
    rw [List.drop_drop]
    congr 1
    omega
  rw [hd, ← List.take_add]
  congr 1
  omega

theorem length_sliceOf (y : List Int) (s : PySlice)
    (h : s.stop ≤ y.length) (hab : s.start ≤ s.stop) :
    (sliceOf y s).length = s.stop - s.start := by
  simp [sliceOf]
  omega

/-! ### Scatter-write lemmas -/

theorem writeSlice_shape (vec vals : List Int) (s n : Nat)
    (hv : vals.length = n) :
    writeSlice vec ⟨s, s + n⟩ vals =
      vec.take s ++ vals ++ vec.drop (s + n) := by
  simp [writeSlice, hv]

theorem cumNpts_cons_succ (p : String × Nat) (rest : List (String × Nat))
    (k : Nat) :
    cumNpts (p :: rest) (k + 1) = p.2 + cumNpts rest k := by
  simp [cumNpts, List.take_succ_cons]

theorem slicesFor_cons (p : String × PySlice) (l : List (String × PySlice))
    (d : String) :
    slicesFor (p :: l) d =
      if p.1 = d then p.2 :: slicesFor l d else slicesFor l d := by
  by_cases h : p.1 = d <;> simp [slicesFor, List.filter_cons, h]

theorem slicesFor_assignSlices_not_mem (ps : List (String × Nat)) (s : Nat)
    (d : String) (h : d ∉ ps.map Prod.fst) :
    slicesFor (assignSlices ps s) d = [] := by
  induction ps generalizing s with
  | nil => rfl
  | cons p rest ih =>
    cases p with
    | mk d0 n =>
      simp only [List.map_cons, List.mem_cons, not_or] at h
      rw [assignSlices, slicesFor_cons]
      rw [if_neg (fun hc => h.1 (Eq.symm hc))]
      exact ih (s + n) h.2

theorem slicesFor_assignSlices_nodup (ps : List (String × Nat)) (s : Nat)
    (hnd : (ps.map Prod.fst).Nodup) (k : Nat) (hk : k < ps.length) :
    slicesFor (assignSlices ps s) ((ps.getD k ("", 0)).1) =
      [⟨s + cumNpts ps k, s + cumNpts ps (k + 1)⟩] := by
  induction ps generalizing s k with
  | nil => simp at hk
  | cons p rest ih =>
    cases p with
    | mk d0 n =>
      have hnd2 : (d0 :: rest.map Prod.fst).Nodup := by simpa using hnd
      have hpair := List.nodup_cons.mp hnd2
      cases k with
      | zero =>
        rw [List.getD_cons_zero, assignSlices, slicesFor_cons]
        rw [if_pos rfl]
        rw [slicesFor_assignSlices_not_mem rest (s + n) d0 hpair.1]
        have h2 : cumNpts ((d0, n) :: rest) 1 = n := by
          simp [cumNpts, List.take_succ_cons]
        rw [h2]
        simp [cumNpts]
      | succ k =>
        have hk' : k < rest.length := by simpa using hk
        rw [List.getD_cons_succ]
        have hmem : (rest.getD k ("", 0)).1 ∈ rest.map Prod.fst := by
          rw [List.getD_eq_getElem _ _ hk']
          exact List.mem_map_of_mem Prod.fst (List.getElem_mem hk')
        have hne : ¬ d0 = (rest.getD k ("", 0)).1 := by
          intro hc
          exact hpair.1 (hc ▸ hmem)
        rw [assignSlices, slicesFor_cons]
        simp only [if_neg hne]
        rw [ih (s + n) hpair.2 k hk', cumNpts_cons_succ, cumNpts_cons_succ]
        have : s + (n + cumNpts rest k) = s + n + cumNpts rest k := by omega
        rw [this]
        have : s + (n + cumNpts rest (k + 1)) = s + n + cumNpts rest (k + 1) := by
          omega
        rw [this]

theorem scatterChild_single (gsl : List (String × PySlice)) (d : String)
    (cs : PySlice) (cv vec : List Int) (g : PySlice)
    (hg : slicesFor gsl d = [g]) :
    scatterChild gsl [(d, cs)] cv vec = writeSlice vec g (sliceOf cv cs) := by
  have hkeys : firstKeys ([(d, cs)].map Prod.fst) = [d] := rfl
  have hcsl : slicesFor [(d, cs)] d = [cs] := by
    rw [slicesFor_cons]
    simp [slicesFor]
  rw [scatterChild, hkeys, List.foldl_cons, hcsl, hg]
  rfl

theorem getD_replicate_false (p i : Nat) :
    (List.replicate p false).getD i false = false := by
  by_cases h : i < p
  · rw [List.getD_eq_getElem _ _ (by simpa using h), List.getElem_replicate]
  · rw [List.getD_eq_default _ _ (by simpa using h)]

theorem getD_append_replicate_false (m : List Bool) (p i : Nat) :
    (m ++ List.replicate p false).getD i false = m.getD i false := by
  by_cases h : i < m.length
  · rw [List.getD_append _ _ _ _ h]
  · rw [List.getD_append_right _ _ _ _ (by omega), getD_replicate_false,
      List.getD_eq_default _ _ (by omega)]

theorem sum_indicator_assignSlices (counts : List (String × Nat)) (s i : Nat) :
    ((assignSlices counts s).map fun q =>
        if q.2.start ≤ i ∧ i < q.2.stop then (1 : Nat) else 0).sum =
      if s ≤ i ∧ i < s + totalNpts counts then 1 else 0 := by
  induction counts generalizing s with
  | nil =>
    have h0 : totalNpts ([] : List (String × Nat)) = 0 := rfl
    simp only [assignSlices, List.map_nil, List.sum_nil, h0, Nat.add_zero]
    rw [if_neg (by omega)]
  | cons p rest ih =>
    cases p with
    | mk d n =>
      rw [assignSlices, List.map_cons, List.sum_cons, ih (s + n)]
      have htot : totalNpts ((d, n) :: rest) = n + totalNpts rest := by
        simp [totalNpts]
      rw [htot]
      by_cases h1 : s ≤ i ∧ i < s + n
      · rw [if_pos h1, if_neg (by omega), if_pos (by omega)]
      · rw [if_neg h1]
        by_cases h2 : s + n ≤ i ∧ i < s + n + totalNpts rest
        · rw [if_pos h2, if_pos (by omega)]
        · rw [if_neg h2, if_neg (by omega)]

theorem scatter_fold_consecutive (y : List Int)
    (gsl : List (String × PySlice)) (ps : List (String × Nat)) (s : Nat)
    (vec : List Int)
    (hsl : ∀ k, k < ps.length →
      slicesFor gsl ((ps.getD k ("", 0)).1) =
        [⟨s + cumNpts ps k, s + cumNpts ps (k + 1)⟩])
    (hy : s + totalNpts ps ≤ y.length)
    (hvec : s + totalNpts ps ≤ vec.length) :
    (((assignSlices ps s).map fun q => sliceOf y q.2).zip
        (ps.map fun p => [(p.1, PySlice.mk 0 p.2)])).foldl
      (fun v pr => scatterChild gsl pr.2 pr.1 v) vec =
      vec.take s ++ sliceOf y ⟨s, s + totalNpts ps⟩ ++
        vec.drop (s + totalNpts ps) := by
  induction ps generalizing s vec with
  | nil =>
    have h0 : totalNpts ([] : List (String × Nat)) = 0 := rfl
    simp only [assignSlices, List.map_nil, List.zip_nil_left, List.foldl_nil,
      h0, Nat.add_zero]
    have hslice : sliceOf y ⟨s, s⟩ = [] := by
      simp [sliceOf]
    rw [hslice, List.append_nil, List.take_append_drop]
  | cons p rest ih =>
    cases p with
    | mk d0 n =>
      have htot : totalNpts ((d0, n) :: rest) = n + totalNpts rest := by
        simp [totalNpts]
      rw [htot] at hy hvec ⊢
      have hg : slicesFor gsl d0 = [⟨s, s + n⟩] := by
        have := hsl 0 (by simp)
        simpa [cumNpts_cons_succ, cumNpts] using this
      have hstop : s + n ≤ y.length := by omega
      have h1 : (sliceOf y ⟨s, s + n⟩).length = s + n - s :=
        length_sliceOf y ⟨s, s + n⟩ hstop (Nat.le_add_right s n)
      have hlenval : (sliceOf y ⟨s, s + n⟩).length = n := by omega
      have hvals : sliceOf (sliceOf y ⟨s, s + n⟩) ⟨0, n⟩ =
          sliceOf y ⟨s, s + n⟩ := by
        rw [sliceOf_single_take, List.take_of_length_le (by omega)]
      rw [assignSlices, List.map_cons, List.map_cons, List.zip_cons_cons,
        List.foldl_cons]
      rw [scatterChild_single gsl d0 ⟨0, n⟩ _ vec ⟨s, s + n⟩ hg, hvals,
        writeSlice_shape vec _ s n hlenval]
      have hrest : ∀ k, k < rest.length →
          slicesFor gsl ((rest.getD k ("", 0)).1) =
            [⟨s + n + cumNpts rest k, s + n + cumNpts rest (k + 1)⟩] := by
        intro k hk
        have := hsl (k + 1) (by simpa using hk)
        rw [List.getD_cons_succ, cumNpts_cons_succ, cumNpts_cons_succ] at this
        have e1 : s + (n + cumNpts rest k) = s + n + cumNpts rest k := by omega
        have e2 : s + (n + cumNpts rest (k + 1)) = s + n + cumNpts rest (k + 1) := by
          omega
        rw [e1, e2] at this
        exact this
      have hlen1 : (vec.take s ++ sliceOf y ⟨s, s + n⟩).length = s + n := by
        simp only [List.length_append, List.length_take, hlenval]
        omega
      have hvec2 : (s + n) + totalNpts rest ≤
          (vec.take s ++ sliceOf y ⟨s, s + n⟩ ++ vec.drop (s + n)).length := by
        simp only [List.length_append, List.length_take, List.length_drop,
          hlenval]
        omega
      rw [ih (s + n) _ hrest (by omega) hvec2]
      have hA : (vec.take s ++ sliceOf y ⟨s, s + n⟩ ++
          vec.drop (s + n)).take (s + n) =
          vec.take s ++ sliceOf y ⟨s, s + n⟩ :=
        List.take_left' hlen1
      have hB : (vec.take s ++ sliceOf y ⟨s, s + n⟩ ++
          vec.drop (s + n)).drop ((s + n) + totalNpts rest) =
          vec.drop (s + (n + totalNpts rest)) := by
        rw [List.drop_append_eq_append_drop,
          List.drop_eq_nil_of_le (by omega), List.nil_append, hlen1,
          List.drop_drop]
        congr 1
        omega
      rw [hA, hB]
      have e4 : sliceOf y ⟨s, s + n⟩ ++
          sliceOf y ⟨s + n, (s + n) + totalNpts rest⟩ =
          sliceOf y ⟨s, (s + n) + totalNpts rest⟩ := by
        apply sliceOf_chain <;> omega
      have e3 : (s + n) + totalNpts rest = s + (n + totalNpts rest) := by omega
      rw [e3] at e4
      rw [e3]
      calc vec.take s ++ sliceOf y ⟨s, s + n⟩ ++
            sliceOf y ⟨s + n, s + (n + totalNpts rest)⟩ ++
            vec.drop (s + (n + totalNpts rest))
          = vec.take s ++ (sliceOf y ⟨s, s + n⟩ ++
              sliceOf y ⟨s + n, s + (n + totalNpts rest)⟩) ++
              vec.drop (s + (n + totalNpts rest)) := by
            rw [List.append_assoc (vec.take s)]
        _ = vec.take s ++ sliceOf y ⟨s, s + (n + totalNpts rest)⟩ ++
              vec.drop (s + (n + totalNpts rest)) := by
            rw [e4]

theorem concat_simplify_sv_spec (children : List (List PySlice))
    (lastC : List PySlice) (h : children.getLast? = some lastC) :
    (¬ (∀ c ∈ children, (sv_evaluation_array c).length ≤
          (sv_evaluation_array lastC).length) →
        concat_simplify_sv children = .error .valueError)
    ∧ ((∀ c ∈ children, (sv_evaluation_array c).length ≤
          (sv_evaluation_array lastC).length) →
        concat_simplify_sv children =
          if masksSumToOneAt children (sv_evaluation_array lastC).length
          then .ok (some ⟨((children.headD []).headD ⟨0, 0⟩).start,
            (lastC.getLastD ⟨0, 0⟩).stop⟩)
          else .ok none) := by
  have hcond : ∀ i : Nat,
      ((children.map fun c =>
          sv_evaluation_array c ++
            List.replicate ((sv_evaluation_array lastC).length -
              (sv_evaluation_array c).length) false).map
        fun p => if p.getD i false then (1 : Nat) else 0).sum =
      (children.map fun c =>
        if (sv_evaluation_array c).getD i false then (1 : Nat) else 0).sum := by
    intro i
    rw [List.map_map]
    congr 1
    apply List.map_congr_left
    intro c _
    simp only [Function.comp]
    rw [getD_append_replicate_false]
  have hall : (List.range (sv_evaluation_array lastC).length).all
      (fun i =>
        ((children.map fun c =>
            sv_evaluation_array c ++
              List.replicate ((sv_evaluation_array lastC).length -
                (sv_evaluation_array c).length) false).map
          fun p => if p.getD i false then 1 else 0).sum = 1) =
      masksSumToOneAt children (sv_evaluation_array lastC).length := by
    unfold masksSumToOneAt
    congr 1
    funext i
    rw [hcond i]
  constructor
  · intro hnot
    unfold concat_simplify_sv
    rw [h]
    dsimp only
    rw [if_neg hnot]
  · intro hle
    unfold concat_simplify_sv
    rw [h]
    dsimp only
    rw [if_pos hle]
    by_cases hm : masksSumToOneAt children (sv_evaluation_array lastC).length
    · rw [if_pos hm, if_pos (hall.trans (by rw [hm]) : _)]
    · rw [if_neg hm, if_neg (by rw [hall]; exact hm)]

theorem mem_of_getLast?_eq {α : Type} (l : List α) (a : α)
    (h : l.getLast? = some a) : a ∈ l := by
  induction l with
  | nil => simp at h
  | cons x t ih =>
    cases t with
    | nil =>
      have : x = a := by simpa using h
      simp [this]
    | cons b t2 =>
      rw [List.getLast?_cons_cons] at h
      exact List.mem_cons_of_mem x (ih h)

/-- C3, amended.  For children that are all StateVectors (`children`
lists the slice tuples), with `lastC` the last child: when some child
has an evaluation array longer than that of the last child,
`_concatenation_simplify` raises `ValueError` (the `np.zeros` pad width
is negative); otherwise the concatenation collapses to
`StateVector(slice(children[0].y_slices[0].start,
children[-1].y_slices[-1].stop))` exactly when the masks, padded to the
mask length of the last child — which is then the common (maximal)
length, the last child being among the children — sum elementwise to
exactly 1 at every position, and produces a domain-cleared copy (no
collapse) exactly when that padded sum differs from 1 somewhere. -/
theorem concat_simplify_sv_characterization
    (children : List (List PySlice)) (lastC : List PySlice)
    (hlast : children.getLast? = some lastC) :
    (¬ (∀ c ∈ children, (sv_evaluation_array c).length ≤
          (sv_evaluation_array lastC).length) →
        concat_simplify_sv children = .error .valueError)
    ∧ ((∀ c ∈ children, (sv_evaluation_array c).length ≤
          (sv_evaluation_array lastC).length) →
        (concat_simplify_sv children =
            .ok (some ⟨((children.headD []).headD ⟨0, 0⟩).start,
              (lastC.getLastD ⟨0, 0⟩).stop⟩) ↔
          masksSumToOneAt children (sv_evaluation_array lastC).length = true)
        ∧ (concat_simplify_sv children = .ok none ↔
            masksSumToOneAt children
              (sv_evaluation_array lastC).length = false))
    ∧ lastC ∈ children := by
  obtain ⟨herr, hok⟩ := concat_simplify_sv_spec children lastC hlast
  refine ⟨herr, fun hle => ⟨?_, ?_⟩, mem_of_getLast?_eq children lastC hlast⟩
  · rw [hok hle]
    by_cases hm : masksSumToOneAt children (sv_evaluation_array lastC).length
    · simp [hm]
    · simp only [Bool.not_eq_true] at hm
      simp [hm]
  · rw [hok hle]
    by_cases hm : masksSumToOneAt children (sv_evaluation_array lastC).length
    · simp [hm]
    · simp only [Bool.not_eq_true] at hm
      simp [hm]

/-- Witness for the C3 amended theorem: at the in-order children
`[SV(slice(0,2)), SV(slice(2,4))]` the hypotheses hold, the padded masks
sum to 1 everywhere, and the concatenation collapses to
`StateVector(slice(0, 4))`. -/
theorem concat_simplify_sv_characterization_witness :
    concat_simplify_sv [[⟨0, 2⟩], [⟨2, 4⟩]] = .ok (some ⟨0, 4⟩) := by
  have h := concat_simplify_sv_characterization [[⟨0, 2⟩], [⟨2, 4⟩]]
    [⟨2, 4⟩] rfl
  exact ((h.2.1 (by decide)).1).mpr (by decide)

theorem getLast?_eq_getLastD {α : Type} (l : List α) (d : α) (h : l ≠ []) :
    l.getLast? = some (l.getLastD d) := by
  induction l generalizing d with
  | nil => exact absurd rfl h
  | cons x t ih =>
    cases t with
    | nil => rfl
    | cons b t2 =>
      rw [List.getLast?_cons_cons, List.getLastD_cons]
      exact ih x (by simp)

theorem exists_unique_cum_interval (ns : List Nat) (p : Nat) (hp : p < ns.sum) :
    ∃! k, k < ns.length ∧ (ns.take k).sum ≤ p ∧ p < (ns.take (k + 1)).sum := by
  induction ns generalizing p with
  | nil => simp at hp
  | cons n rest ih =>
    by_cases hpn : p < n
    · refine ⟨0, ⟨by simp, by simp, by simpa using hpn⟩, ?_⟩
      rintro k ⟨hk, hkl, hkr⟩
      cases k with
      | zero => rfl
      | succ m =>
        exfalso
        rw [List.take_succ_cons, List.sum_cons] at hkl
        omega
    · have hsum : p - n < rest.sum := by
        rw [List.sum_cons] at hp
        omega
      obtain ⟨k0, ⟨hk0len, hk0l, hk0r⟩, huniq⟩ := ih (p - n) hsum
      refine ⟨k0 + 1, ⟨by simpa using hk0len, ?_, ?_⟩, ?_⟩
      · rw [List.take_succ_cons, List.sum_cons]
        omega
      · rw [List.take_succ_cons, List.sum_cons]
        omega
      · rintro k ⟨hk, hkl, hkr⟩
        cases k with
        | zero =>
          exfalso
          simp only [List.take_succ_cons, List.take_zero, List.sum_cons,
            List.sum_nil] at hkr
          omega
        | succ m =>
          have hm : m = k0 := by
            refine huniq m ⟨by simpa using hk, ?_, ?_⟩
            · rw [List.take_succ_cons, List.sum_cons] at hkl
              omega
            · rw [List.take_succ_cons, List.sum_cons] at hkr
              omega
          rw [hm]

/-! ### Inversion of create_slices -/

theorem lookupNpts_map_fst (mesh : Mesh) :
    ∀ (base res : List (String × Nat)), lookupNpts mesh base = .ok res →
      res.map Prod.fst = base.map Prod.fst := by
  intro base
  induction base with
  | nil =>
    intro res h
    cases h
    rfl
  | cons p t ih =>
    intro res h
    unfold lookupNpts at h
    cases hg : (mesh.pts p.1).get? p.2 with
    | none =>
      rw [hg] at h
      exact absurd h (by simp)
    | some n =>
      rw [hg] at h
      cases hmt : lookupNpts mesh t with
      | error e =>
        rw [hmt] at h
        exact absurd h (by simp)
      | ok r =>
        rw [hmt] at h
        have hres : (p.1, n) :: r = res := by
          cases h
          rfl
        rw [← hres, List.map_cons, List.map_cons, ih r hmt]

theorem create_slices_inv (mesh : Mesh) (secondary : Nat)
    (doms : List String) (l : List (String × PySlice))
    (h : create_slices mesh secondary doms = .ok l) :
    ∃ pairs, createOrder mesh secondary doms = .ok pairs ∧
      l = assignSlices pairs 0 ∧ doms ≠ [] := by
  cases doms with
  | nil => simp [create_slices] at h
  | cons d0 rest =>
    unfold create_slices at h
    dsimp only at h
    by_cases hc : (mesh.pts d0).length ≠ secondary
    · rw [if_pos hc] at h
      exact absurd h (by simp)
    · rw [if_neg hc] at h
      push_neg at hc
      rw [hc] at h
      cases hco : createOrder mesh secondary (d0 :: rest) with
      | error e =>
        rw [hco] at h
        exact absurd h (by simp)
      | ok pairs =>
        rw [hco] at h
        refine ⟨pairs, rfl, ?_, by simp⟩
        cases h
        rfl

theorem createOrder_map_fst (mesh : Mesh) (sp : Nat) (doms : List String)
    (pairs : List (String × Nat)) (h : createOrder mesh sp doms = .ok pairs) :
    pairs.map Prod.fst = (List.range sp).flatMap fun _ => doms := by
  unfold createOrder at h
  have hfst := lookupNpts_map_fst mesh _ _ h
  have h2 : ∀ ns : List Nat,
      ((ns.flatMap fun i => doms.map fun d => (d, i)).map Prod.fst) =
        ns.flatMap fun _ => doms := by
    intro ns
    induction ns with
    | nil => rfl
    | cons a t iht =>
      rw [List.flatMap_cons, List.flatMap_cons, List.map_append, iht]
      congr 1
      rw [List.map_map]
      have hcomp : (Prod.fst ∘ fun d : String => (d, a)) = fun d : String => d :=
        rfl
      rw [hcomp, List.map_id']
  rw [hfst, h2]

/-- C1, amended.  The global slice map of `create_slices` is built with
the SECONDARY index in the outer loop and the canonically ordered
domains in the inner loop: in creation order the domain sequence is the
node's domain list repeated once per secondary index (secondary-major),
one contiguous slice is appended per (secondary index, domain) pair
whose length is that domain's point count at that secondary index, and
a single running cursor advances — the first slice starts at 0, every
slice starts exactly where the previous one stops, and every earlier
slice ends no later than any later slice starts; consequently the
domains interleave across secondary indices rather than staying in
canonical blocks (see the counterexample). -/
theorem create_slices_secondary_major (mesh : Mesh) (secondary : Nat)
    (doms : List String) (l : List (String × PySlice))
    (h : create_slices mesh secondary doms = .ok l) :
    l.map Prod.fst = (List.range secondary).flatMap (fun _ => doms)
    ∧ (l.headD ("", ⟨0, 0⟩)).2.start = 0
    ∧ (∀ k, k + 1 < l.length →
        (l.getD k ("", ⟨0, 0⟩)).2.stop =
          (l.getD (k + 1) ("", ⟨0, 0⟩)).2.start)
    ∧ (∀ k1 k2, k1 < k2 → k2 < l.length →
        (l.getD k1 ("", ⟨0, 0⟩)).2.stop ≤
          (l.getD k2 ("", ⟨0, 0⟩)).2.start) := by
  obtain ⟨pairs, hco, hl, hdne⟩ := create_slices_inv mesh secondary doms l h
  subst hl
  have hlen := assignSlices_length pairs 0
  refine ⟨?_, ?_, ?_, ?_⟩
  · rw [assignSlices_map_fst]
    exact createOrder_map_fst mesh secondary doms pairs hco
  · cases pairs with
    | nil => rfl
    | cons p t =>
      cases p
      rfl
  · intro k hk
    rw [assignSlices_getD pairs 0 k (by omega),
      assignSlices_getD pairs 0 (k + 1) (by omega)]
  · intro k1 k2 h12 hk2
    rw [assignSlices_getD pairs 0 k1 (by omega),
      assignSlices_getD pairs 0 k2 (by omega)]
    dsimp only
    have := cumNpts_mono pairs (show k1 + 1 ≤ k2 by omega)
    omega

/-- Witness for the C1 amended theorem at the two-domain,
two-secondary-point mesh. -/
theorem create_slices_secondary_major_witness :
    ([("A", (⟨0, 1⟩ : PySlice)), ("B", ⟨1, 2⟩), ("A", ⟨2, 3⟩),
        ("B", ⟨3, 4⟩)].map Prod.fst =
      (List.range 2).flatMap fun _ => ["A", "B"])
    ∧ ([("A", (⟨0, 1⟩ : PySlice)), ("B", ⟨1, 2⟩), ("A", ⟨2, 3⟩),
        ("B", ⟨3, 4⟩)].getD 0 ("", ⟨0, 0⟩)).2.stop =
      ([("A", (⟨0, 1⟩ : PySlice)), ("B", ⟨1, 2⟩), ("A", ⟨2, 3⟩),
        ("B", ⟨3, 4⟩)].getD 1 ("", ⟨0, 0⟩)).2.start := by
  have h := create_slices_secondary_major meshAB2 2 ["A", "B"]
    [("A", ⟨0, 1⟩), ("B", ⟨1, 2⟩), ("A", ⟨2, 3⟩), ("B", ⟨3, 4⟩)] rfl
  exact ⟨h.1, h.2.2.1 0 (by decide)⟩

theorem domConcat_size_last (mesh : Mesh) (secondary : Nat)
    (doms : List String) (l : List (String × PySlice))
    (h : create_slices mesh secondary doms = .ok l)
    (hd : doms ≠ []) (hs : 1 ≤ secondary) :
    domConcat_size l doms = .ok ((l.getLastD ("", ⟨0, 0⟩)).2.stop) := by
  obtain ⟨pairs, hco, hl, hdne⟩ := create_slices_inv mesh secondary doms l h
  subst hl
  have hfsts : (assignSlices pairs 0).map Prod.fst =
      (List.range secondary).flatMap fun _ => doms := by
    rw [assignSlices_map_fst]
    exact createOrder_map_fst mesh secondary doms pairs hco
  have hfne : ((List.range secondary).flatMap fun _ => doms) ≠ [] := by
    cases secondary with
    | zero => omega
    | succ m =>
      rw [List.range_succ, List.flatMap_append]
      have h3 : ([m].flatMap fun _ => doms) = doms := by simp
      rw [h3]
      simp [hd]
  have hlne : assignSlices pairs 0 ≠ [] := by
    intro hcon
    rw [hcon] at hfsts
    exact hfne hfsts.symm
  have hlast_l : (assignSlices pairs 0).getLast? =
      some ((assignSlices pairs 0).getLastD ("", ⟨0, 0⟩)) :=
    getLast?_eq_getLastD _ _ hlne
  have hfst_last : ((assignSlices pairs 0).getLastD ("", ⟨0, 0⟩)).1 =
      doms.getLastD "" := by
    have h1 : ((assignSlices pairs 0).map Prod.fst).getLast? =
        some (((assignSlices pairs 0).getLastD ("", ⟨0, 0⟩)).1) := by
      rw [List.getLast?_map, hlast_l]
      rfl
    have h2 : (((List.range secondary).flatMap fun _ => doms)).getLast? =
        some (doms.getLastD "") := by
      cases secondary with
      | zero => omega
      | succ m =>
        rw [List.range_succ, List.flatMap_append, List.getLast?_append]
        have h3 : ([m].flatMap fun _ => doms) = doms := by simp
        rw [h3, getLast?_eq_getLastD doms "" hd]
        rfl
    rw [hfsts] at h1
    exact Option.some_inj.mp (h1.symm.trans h2)
  unfold domConcat_size slicesFor
  have hfilter : ((assignSlices pairs 0).filter
      (fun p => p.1 = doms.getLastD "")).getLast? =
      some ((assignSlices pairs 0).getLastD ("", ⟨0, 0⟩)) := by
    apply getLast?_filter_of_getLast? _ _ _ hlast_l
    show decide (((assignSlices pairs 0).getLastD ("", ⟨0, 0⟩)).1 =
      doms.getLastD "") = true
    exact decide_eq_true hfst_last
  rw [List.getLast?_map, hfilter]
  rfl

/-- C10.  For every successful `create_slices` call (hence for the slice
map of every successfully constructed DomainConcatenation) over a
nonempty domain list with at least one secondary point: the creation
order is nonempty, its first slice starts at 0, each subsequent slice
starts exactly where the previous one stops, the stored size
`self._slices[self.domain[-1]][-1].stop` equals the stop of the overall
last created slice, and every output position below that size belongs to
exactly one created (domain, secondary index) slice. -/
theorem create_slices_partition (mesh : Mesh) (secondary : Nat)
    (doms : List String) (l : List (String × PySlice))
    (h : create_slices mesh secondary doms = .ok l)
    (hd : doms ≠ []) (hs : 1 ≤ secondary) :
    l ≠ []
    ∧ (l.headD ("", ⟨0, 0⟩)).2.start = 0
    ∧ (∀ k, k + 1 < l.length →
        (l.getD k ("", ⟨0, 0⟩)).2.stop =
          (l.getD (k + 1) ("", ⟨0, 0⟩)).2.start)
    ∧ domConcat_size l doms = .ok ((l.getLastD ("", ⟨0, 0⟩)).2.stop)
    ∧ (∀ p, p < (l.getLastD ("", ⟨0, 0⟩)).2.stop →
        ∃! k, k < l.length ∧ (l.getD k ("", ⟨0, 0⟩)).2.start ≤ p ∧
          p < (l.getD k ("", ⟨0, 0⟩)).2.stop) := by
  obtain ⟨pairs, hco, hl, hdne⟩ := create_slices_inv mesh secondary doms l h
  subst hl
  have hlen := assignSlices_length pairs 0
  have hfsts : (assignSlices pairs 0).map Prod.fst =
      (List.range secondary).flatMap fun _ => doms := by
    rw [assignSlices_map_fst]
    exact createOrder_map_fst mesh secondary doms pairs hco
  have hfne : ((List.range secondary).flatMap fun _ => doms) ≠ [] := by
    cases secondary with
    | zero => omega
    | succ m =>
      rw [List.range_succ, List.flatMap_append]
      have h3 : ([m].flatMap fun _ => doms) = doms := by simp
      rw [h3]
      simp [hd]
  have hlne : assignSlices pairs 0 ≠ [] := by
    intro hcon
    rw [hcon] at hfsts
    exact hfne hfsts.symm
  have hpne : pairs ≠ [] := by
    intro hcon
    subst hcon
    exact hlne rfl
  have hlast_l : (assignSlices pairs 0).getLast? =
      some ((assignSlices pairs 0).getLastD ("", ⟨0, 0⟩)) :=
    getLast?_eq_getLastD _ _ hlne
  have hfst_last : ((assignSlices pairs 0).getLastD ("", ⟨0, 0⟩)).1 =
      doms.getLastD "" := by
    have h1 : ((assignSlices pairs 0).map Prod.fst).getLast? =
        some (((assignSlices pairs 0).getLastD ("", ⟨0, 0⟩)).1) := by
      rw [List.getLast?_map, hlast_l]
      rfl
    have h2 : (((List.range secondary).flatMap fun _ => doms)).getLast? =
        some (doms.getLastD "") := by
      cases secondary with
      | zero => omega
      | succ m =>
        rw [List.range_succ, List.flatMap_append, List.getLast?_append]
        have h3 : ([m].flatMap fun _ => doms) = doms := by simp
        rw [h3, getLast?_eq_getLastD doms "" hd]
        rfl
    rw [hfsts] at h1
    exact Option.some_inj.mp (h1.symm.trans h2)
  have hstop : ((assignSlices pairs 0).getLastD ("", ⟨0, 0⟩)).2.stop =
      totalNpts pairs := by
    have := assignSlices_getLastD_stop pairs 0 hpne
    simpa using this
  refine ⟨hlne, ?_, ?_, ?_, ?_⟩
  · cases pairs with
    | nil => exact absurd rfl hpne
    | cons p t =>
      cases p
      rfl
  · intro k hk
    rw [assignSlices_getD pairs 0 k (by omega),
      assignSlices_getD pairs 0 (k + 1) (by omega)]
  · exact domConcat_size_last mesh secondary doms _ h hd hs
  · intro p hp
    rw [hstop] at hp
    obtain ⟨k, ⟨hk, hkl, hkr⟩, huniq⟩ :=
      exists_unique_cum_interval (pairs.map Prod.snd) p hp
    have hcum : ∀ j, ((pairs.map Prod.snd).take j).sum = cumNpts pairs j := by
      intro j
      rw [cumNpts, List.map_take]
    rw [List.length_map] at hk
    refine ⟨k, ⟨by omega, ?_, ?_⟩, ?_⟩
    · rw [assignSlices_getD pairs 0 k (by omega)]
      dsimp only
      rw [hcum k] at hkl
      omega
    · rw [assignSlices_getD pairs 0 k (by omega)]
      dsimp only
      rw [hcum (k + 1)] at hkr
      omega
    · intro k2 ⟨hk2, hl2, hr2⟩
      rw [assignSlices_getD pairs 0 k2 (by omega)] at hl2 hr2
      dsimp only at hl2 hr2
      refine huniq k2 ⟨by rw [List.length_map]; omega, ?_, ?_⟩
      · rw [hcum k2]
        omega
      · rw [hcum (k2 + 1)]
        omega

/-- Witness for the C10 theorem at the worked two-domain mesh with one
secondary point. -/
theorem create_slices_partition_witness :
    domConcat_size [("A", ⟨0, 2⟩), ("B", ⟨2, 5⟩)] ["A", "B"] = .ok 5 := by
  have h := create_slices_partition meshAB 1 ["A", "B"]
    [("A", ⟨0, 2⟩), ("B", ⟨2, 5⟩)] rfl (by simp) (by omega)
  exact h.2.2.2.1

/-- C4, amended.  When the children of a `DomainConcatenation` are
single-slice StateVectors whose slices are exactly the consecutive
global slices that `create_slices` assigns to their (pairwise distinct)
domains from cursor 0 — i.e. child `k` reads precisely the global block
the concatenation stores it to, the realistic in-order discretisation
layout with `secondary_dimensions_npts = 1` — then the contiguity
collapse fires, replacing the concatenation by
`StateVector(slice(0, total))`, and for every external vector `y` long
enough the original concatenation and the replacement evaluate to the
same column vector `y[0:total]`.  (The collapse does NOT preserve
evaluation for out-of-order children, see the counterexample.) -/
theorem contiguous_collapse_evaluation_equivalence
    (counts : List (String × Nat)) (hne : counts ≠ [])
    (hnd : (counts.map Prod.fst).Nodup) (y : List Int)
    (hy : totalNpts counts ≤ y.length) :
    concat_simplify_sv ((assignSlices counts 0).map fun q => [q.2]) =
        .ok (some ⟨0, totalNpts counts⟩)
    ∧ (∀ q ∈ assignSlices counts 0,
        sv_base_evaluate [q.2] (some y) = .ok (sliceOf y q.2))
    ∧ domain_concatenation_evaluate
        ⟨counts.map Prod.fst, 1, assignSlices counts 0, totalNpts counts,
          counts.map fun p => [(p.1, ⟨0, p.2⟩)]⟩
        ((assignSlices counts 0).map fun q => sliceOf y q.2) =
        y.take (totalNpts counts)
    ∧ sv_base_evaluate [⟨0, totalNpts counts⟩] (some y) =
        .ok (y.take (totalNpts counts)) := by
  have hlen_l : (assignSlices counts 0).length = counts.length :=
    assignSlices_length counts 0
  have hlne : assignSlices counts 0 ≠ [] := by
    intro hcon
    rw [hcon] at hlen_l
    exact hne (List.length_eq_zero.mp hlen_l.symm)
  -- every element of the slice assignment is a cumulative-sum slice
  have hqchar : ∀ q ∈ assignSlices counts 0, ∃ k, k < counts.length ∧
      q = (assignSlices counts 0).getD k ("", ⟨0, 0⟩) := by
    intro q hq
    obtain ⟨k, hk, hqe⟩ := List.mem_iff_getElem.mp hq
    exact ⟨k, by omega, by
      rw [List.getD_eq_getElem _ _ (by omega)]
      exact hqe.symm⟩
  have hbounds : ∀ q ∈ assignSlices counts 0,
      q.2.start ≤ q.2.stop ∧ q.2.stop ≤ totalNpts counts := by
    intro q hq
    obtain ⟨k, hk, hqe⟩ := hqchar q hq
    rw [hqe, assignSlices_getD counts 0 k hk]
    constructor
    · have := cumNpts_mono counts (Nat.le_succ k)
      simpa using this
    · have h1 := cumNpts_mono counts (show k + 1 ≤ counts.length by omega)
      have h2 := cumNpts_length counts
      simpa using le_trans h1 (le_of_eq h2)
  -- per-child evaluation
  have hchild : ∀ q ∈ assignSlices counts 0,
      sv_base_evaluate [q.2] (some y) = .ok (sliceOf y q.2) := by
    intro q hq
    obtain ⟨hab, hb⟩ := hbounds q hq
    exact sv_base_evaluate_single q.2.start q.2.stop y hab (by omega)
  -- the last child
  have hlastq : (assignSlices counts 0).getLast? =
      some ((assignSlices counts 0).getLastD ("", ⟨0, 0⟩)) :=
    getLast?_eq_getLastD _ _ hlne
  have hstop_last :
      ((assignSlices counts 0).getLastD ("", ⟨0, 0⟩)).2.stop =
        totalNpts counts := by
    have := assignSlices_getLastD_stop counts 0 hne
    simpa using this
  have hlastC : ((assignSlices counts 0).map fun q => [q.2]).getLast? =
      some [((assignSlices counts 0).getLastD ("", ⟨0, 0⟩)).2] := by
    rw [List.getLast?_map, hlastq]
    rfl
  have hmask_last :
      (sv_evaluation_array
        [((assignSlices counts 0).getLastD ("", ⟨0, 0⟩)).2]).length =
      totalNpts counts := by
    rw [length_sv_evaluation_array]
    exact hstop_last
  -- the collapse condition holds
  have hle : ∀ c ∈ (assignSlices counts 0).map fun q => [q.2],
      (sv_evaluation_array c).length ≤
        (sv_evaluation_array
          [((assignSlices counts 0).getLastD ("", ⟨0, 0⟩)).2]).length := by
    intro c hc
    obtain ⟨q, hq, hce⟩ := List.mem_map.mp hc
    rw [← hce, hmask_last, length_sv_evaluation_array]
    exact (hbounds q hq).2
  have hmasks : masksSumToOneAt ((assignSlices counts 0).map fun q => [q.2])
      (sv_evaluation_array
        [((assignSlices counts 0).getLastD ("", ⟨0, 0⟩)).2]).length = true := by
    rw [hmask_last]
    unfold masksSumToOneAt
    rw [List.all_eq_true]
    intro i hi
    have hi2 : i < totalNpts counts := List.mem_range.mp hi
    have hmapeq : (((assignSlices counts 0).map fun q => [q.2]).map fun c =>
        if (sv_evaluation_array c).getD i false then (1 : Nat) else 0) =
        ((assignSlices counts 0).map fun q =>
          if q.2.start ≤ i ∧ i < q.2.stop then (1 : Nat) else 0) := by
      rw [List.map_map]
      apply List.map_congr_left
      intro q _
      simp only [Function.comp]
      rw [getD_sv_evaluation_array_single q.2.start q.2.stop i]
      by_cases hcc : q.2.start ≤ i ∧ i < q.2.stop <;> simp [hcc]
    rw [hmapeq, sum_indicator_assignSlices counts 0 i,
      if_pos (by constructor <;> omega)]
    simp
  -- assemble the collapse
  have hspec := concat_simplify_sv_spec
    ((assignSlices counts 0).map fun q => [q.2])
    [((assignSlices counts 0).getLastD ("", ⟨0, 0⟩)).2] hlastC
  have hcollapse : concat_simplify_sv
      ((assignSlices counts 0).map fun q => [q.2]) =
      .ok (some ⟨0, totalNpts counts⟩) := by
    rw [hspec.2 hle, if_pos hmasks]
    obtain ⟨c0, rest, rfl⟩ : ∃ c0 rest, counts = c0 :: rest := by
      cases counts with
      | nil => exact absurd rfl hne
      | cons c0 rest => exact ⟨c0, rest, rfl⟩
    cases c0 with
    | mk d0 n0 =>
      have hhead : ((((assignSlices ((d0, n0) :: rest) 0).map
          fun q => [q.2]).headD []).headD (⟨0, 0⟩ : PySlice)).start = 0 := rfl
      rw [hhead]
      have hlast2 : (([((assignSlices ((d0, n0) :: rest) 0).getLastD
          ("", ⟨0, 0⟩) |>.2)]).getLastD (⟨0, 0⟩ : PySlice)).stop =
          totalNpts ((d0, n0) :: rest) := hstop_last
      rw [hlast2]
  -- the scatter evaluation
  have hsl : ∀ k, k < counts.length →
      slicesFor (assignSlices counts 0) ((counts.getD k ("", 0)).1) =
        [⟨0 + cumNpts counts k, 0 + cumNpts counts (k + 1)⟩] :=
    fun k hk => slicesFor_assignSlices_nodup counts 0 hnd k hk
  have hscatter := scatter_fold_consecutive y (assignSlices counts 0) counts 0
    (List.replicate (totalNpts counts) (0 : Int)) hsl (by omega) (by simp)
  have heval : domain_concatenation_evaluate
      ⟨counts.map Prod.fst, 1, assignSlices counts 0, totalNpts counts,
        counts.map fun p => [(p.1, ⟨0, p.2⟩)]⟩
      ((assignSlices counts 0).map fun q => sliceOf y q.2) =
      y.take (totalNpts counts) := by
    rw [domain_concatenation_evaluate]
    rw [hscatter]
    rw [Nat.zero_add, List.take_zero, List.nil_append, sliceOf_single_take,
      List.drop_eq_nil_of_le (by simp), List.append_nil]
  exact ⟨hcollapse, hchild, heval,
    by
      rw [sv_base_evaluate_single 0 (totalNpts counts) y (Nat.zero_le _) hy,
        sliceOf_single_take]⟩

/-- Witness for the C4 amended theorem: two domains of 2 and 3 points,
children `SV(slice(0,2))` and `SV(slice(2,5))`, external vector
`[10, 20, 30, 40, 50]`: the collapse fires with `slice(0, 5)` and both
the concatenation and the replacement evaluate to the full vector. -/
theorem contiguous_collapse_evaluation_equivalence_witness :
    concat_simplify_sv [[⟨0, 2⟩], [⟨2, 5⟩]] = .ok (some ⟨0, 5⟩)
    ∧ domain_concatenation_evaluate
        ⟨["A", "B"], 1, [("A", ⟨0, 2⟩), ("B", ⟨2, 5⟩)], 5,
          [[("A", ⟨0, 2⟩)], [("B", ⟨0, 3⟩)]]⟩
        [[10, 20], [30, 40, 50]] = [10, 20, 30, 40, 50]
    ∧ sv_base_evaluate [⟨0, 5⟩] (some [10, 20, 30, 40, 50]) =
        .ok [10, 20, 30, 40, 50] := by
  have h := contiguous_collapse_evaluation_equivalence [("A", 2), ("B", 3)]
    (by simp) (by simp) [10, 20, 30, 40, 50] (by decide)
  exact ⟨h.1, h.2.2.1, h.2.2.2⟩

/-- C6, amended.  `_base_evaluate` raises `TypeError` without an
external vector, raises `ValueError` when the vector is shorter than the
evaluation array — whose length is the stop of the LAST supplied slice —
and otherwise returns the positions of `y` that are selected by some
slice and lie below that length, in ASCENDING INDEX order (boolean-mask
selection), as a column vector; for slices supplied in increasing index
order this coincides with slice order, but portions of earlier slices at
or beyond the stop of the last slice are dropped and out-of-order values
come back sorted by index (see the counterexample). -/
theorem sv_base_evaluate_characterization :
    (∀ ys : List PySlice, sv_base_evaluate ys none = .error .typeError)
    ∧ (∀ (ys : List PySlice) (y : List Int),
        y.length < (sv_evaluation_array ys).length →
          sv_base_evaluate ys (some y) = .error .valueError)
    ∧ (∀ ys : List PySlice,
        (sv_evaluation_array ys).length = (ys.getLastD ⟨0, 0⟩).stop)
    ∧ (∀ (ys : List PySlice) (y : List Int),
        (sv_evaluation_array ys).length ≤ y.length →
          sv_base_evaluate ys (some y) =
            .ok ((List.range (sv_evaluation_array ys).length).filterMap
              fun i => if ∃ s ∈ ys, s.start ≤ i ∧ i < s.stop
                then some (y.getD i 0) else none))
    ∧ sv_base_evaluate [⟨0, 3⟩] (some [10, 20, 30, 40]) = .ok [10, 20, 30]
    ∧ sv_base_evaluate [⟨0, 3⟩] (some [10, 20]) = .error .valueError := by
  refine ⟨fun ys => rfl, ?_, length_sv_evaluation_array, ?_, rfl, rfl⟩
  · intro ys y hlt
    rw [sv_base_evaluate, if_pos hlt]
  · intro ys y hle
    rw [sv_base_evaluate, if_neg (by omega)]
    congr 1
    rw [maskSelect_eq_range_filterMap _ _ (by rw [List.length_take]; omega)]
    apply List.filterMap_congr
    intro i hi
    have hiL : i < (sv_evaluation_array ys).length := List.mem_range.mp hi
    have hstop : i < (ys.getLastD ⟨0, 0⟩).stop := by
      rw [← length_sv_evaluation_array]
      exact hiL
    have hmask : (sv_evaluation_array ys).getD i false =
        ys.any fun s => decide (s.start ≤ i ∧ i < s.stop) := by
      rw [getD_sv_evaluation_array, decide_eq_true hstop, Bool.true_and]
    have hget : (y.take (sv_evaluation_array ys).length).getD i 0 =
        y.getD i 0 := by
      rw [List.getD_eq_getElem _ _ (by rw [List.length_take]; omega),
        List.getD_eq_getElem _ _ (by omega)]
      rw [List.getElem_take]
    by_cases hc : ∃ s ∈ ys, s.start ≤ i ∧ i < s.stop
    · have hany : (ys.any fun s => decide (s.start ≤ i ∧ i < s.stop)) = true := by
        rw [List.any_eq_true]
        obtain ⟨s, hs, hcs⟩ := hc
        exact ⟨s, hs, decide_eq_true hcs⟩
      rw [hmask, hany]
      rw [if_pos rfl, if_pos hc, hget]
    · have hany : (ys.any fun s => decide (s.start ≤ i ∧ i < s.stop)) = false := by
        rw [Bool.eq_false_iff]
        intro hcon
        rw [List.any_eq_true] at hcon
        obtain ⟨s, hs, hcs⟩ := hcon
        exact hc ⟨s, hs, of_decide_eq_true hcs⟩
      rw [hmask, hany]
      rw [if_neg (by simp), if_neg hc]

/-- Witness for the C6 amended theorem at the single slice `[1, 3)` and
the external vector `[5, 6, 7]`. -/
theorem sv_base_evaluate_characterization_witness :
    sv_base_evaluate [⟨1, 3⟩] (some [5, 6, 7]) =
      .ok ((List.range 3).filterMap fun i =>
        if ∃ s ∈ [PySlice.mk 1 3], s.start ≤ i ∧ i < s.stop
        then some (([5, 6, 7] : List Int).getD i 0) else none) := by
  exact sv_base_evaluate_characterization.2.2.2.1 [⟨1, 3⟩] [5, 6, 7]
    (by decide)

/-- C7.  Two StateVector nodes share one identity (the memoization key
of `set_id`, modelled by the hashed tuple of class, name, evaluation
array and domain) if and only if they agree on name, evaluation-array
content and domain — not on the slice tuples themselves: two nodes built
from different slice sets with the same resulting mask, name and domain
share one identity, while any difference in mask content separates
them. -/
theorem sv_set_id_characterization :
    (∀ s1 s2 : StateVectorNode,
        sv_set_id s1 = sv_set_id s2 ↔
          (s1.name = s2.name
            ∧ sv_evaluation_array s1.y_slices = sv_evaluation_array s2.y_slices
            ∧ s1.domain = s2.domain))
    ∧ (∃ s1 s2 : StateVectorNode, s1.y_slices ≠ s2.y_slices ∧
        sv_set_id s1 = sv_set_id s2)
    ∧ (∀ s1 s2 : StateVectorNode,
        sv_evaluation_array s1.y_slices ≠ sv_evaluation_array s2.y_slices →
          sv_set_id s1 ≠ sv_set_id s2) := by
  refine ⟨?_,
    ⟨⟨[⟨0, 2⟩], "v", []⟩, ⟨[⟨0, 1⟩, ⟨1, 2⟩], "v", []⟩, by decide, by decide⟩,
    ?_⟩
  · intro s1 s2
    unfold sv_set_id
    constructor
    · intro h
      exact ⟨congrArg Prod.fst h, congrArg (fun t => t.2.1) h,
        congrArg (fun t => t.2.2) h⟩
    · rintro ⟨h1, h2, h3⟩
      rw [h1, h2, h3]
  · intro s1 s2 hmask hid
    exact hmask (congrArg (fun t => t.2.1) hid)

/-- Witness for the C7 theorem: the nodes with slice sets
`[slice(0,2)]` and `[slice(0,1), slice(1,2)]`, equal name, domain and
mask, share one identity. -/
theorem sv_set_id_characterization_witness :
    sv_set_id ⟨[⟨0, 2⟩], "v", []⟩ = sv_set_id ⟨[⟨0, 1⟩, ⟨1, 2⟩], "v", []⟩ := by
  exact (sv_set_id_characterization.1 _ _).mpr ⟨rfl, by decide, rfl⟩

/-- C8.  The worked example: over `meshAB` (canonical order `[A, B]`,
one secondary point, 2 points on A and 3 on B) the DomainConcatenation
of one child per domain is constructed with size 5, and evaluating it on
children values `[1,2]` and `[3,4,5]` yields the column vector
`[1,2,3,4,5]`; in general the stored size
`self._slices[self.domain[-1]][-1].stop` equals the stop of the overall
last created slice. -/
theorem domainConcat_size_and_evaluate :
    domainConcat_init meshAB [["A"], ["B"]] = .ok
        ⟨["A", "B"], 1, [("A", ⟨0, 2⟩), ("B", ⟨2, 5⟩)], 5,
          [[("A", ⟨0, 2⟩)], [("B", ⟨0, 3⟩)]]⟩
    ∧ domain_concatenation_evaluate
        ⟨["A", "B"], 1, [("A", ⟨0, 2⟩), ("B", ⟨2, 5⟩)], 5,
          [[("A", ⟨0, 2⟩)], [("B", ⟨0, 3⟩)]]⟩ [[1, 2], [3, 4, 5]] =
        [1, 2, 3, 4, 5]
    ∧ (∀ (mesh : Mesh) (secondary : Nat) (doms : List String)
        (l : List (String × PySlice)),
        create_slices mesh secondary doms = .ok l → doms ≠ [] →
          1 ≤ secondary →
          domConcat_size l doms = .ok ((l.getLastD ("", ⟨0, 0⟩)).2.stop)) := by
  exact ⟨rfl, rfl,
    fun mesh secondary doms l h hd hs =>
      domConcat_size_last mesh secondary doms l h hd hs⟩

/-- Witness for the C8 theorem applying its general size law at the
three-domain mesh. -/
theorem domainConcat_size_and_evaluate_witness :
    domConcat_size [("A", ⟨0, 1⟩), ("B", ⟨1, 2⟩), ("C", ⟨2, 3⟩)]
      ["A", "B", "C"] = .ok 3 := by
  exact domainConcat_size_and_evaluate.2.2 meshABC 1 ["A", "B", "C"]
    [("A", ⟨0, 1⟩), ("B", ⟨1, 2⟩), ("C", ⟨2, 3⟩)] rfl (by simp) (by omega)

/-- C9, amended.  The StateVector constructor rejects its arguments for
TYPE reasons only: with no argument it fails with `IndexError` at
`y_slices[0]`, with any non-slice argument it fails with `TypeError`
from the isinstance loop, and any nonempty tuple of slice objects —
well-formed or not — is accepted (the bounds are never validated, see
the counterexample). -/
theorem stateVector_init_characterization :
    (∀ args : List PyVal, args = [] →
        stateVector_init_slices args = .error .indexError)
    ∧ (∀ args : List PyVal, (∃ a ∈ args, ¬ a.isSlice = true) →
        stateVector_init_slices args = .error .typeError)
    ∧ (∀ sls : List PySlice, sls ≠ [] →
        stateVector_init_slices (sls.map PyVal.slice) = .ok sls) := by
  refine ⟨?_, ?_, ?_⟩
  · intro args h
    subst h
    rfl
  · intro args h
    rw [stateVector_init_slices, if_pos h]
  · intro sls h
    rw [stateVector_init_slices, if_neg ?hns, if_neg ?hne]
    case hns =>
      rintro ⟨a, ha, hns⟩
      obtain ⟨s, _, rfl⟩ := List.mem_map.mp ha
      exact hns rfl
    case hne =>
      intro hcon
      exact h (List.map_eq_nil_iff.mp hcon)
    congr 1
    rw [List.filterMap_map]
    have hcomp : ((fun a : PyVal =>
        match a with
        | .slice s => some s
        | .intVal _ => none) ∘ PyVal.slice) = some := rfl
    rw [hcomp, List.filterMap_some]

/-- Witness for the C9 amended theorem: a single well-typed slice
argument is accepted. -/
theorem stateVector_init_characterization_witness :
    stateVector_init_slices [PyVal.slice ⟨0, 2⟩] = .ok [⟨0, 2⟩] := by
  exact stateVector_init_characterization.2.2 [⟨0, 2⟩] (by simp)

end PyBaMM
